import Mathlib

/-!
Verification development for the HOL hardware-verification app (`src/app.py`).

The app builds sympy boolean expressions from user-entered component
definitions, composes them with `And`, analyses them (`simplify_logic`,
`satisfiable`), simulates per-output delays (`sim_table`), and renders a
proof tree (`describe_expr`, `build_proof_tree_clickable`).  This file embeds
those parts shallowly and proves/refutes the specification claims about them.
-/

namespace HOL

/-- Shallow embedding of the sympy boolean expression trees the app works
with: `Symbol` (variable), n-ary `And` / `Or` (children as stored in
`expr.args`), `Not`, and the constants `BooleanTrue` / `BooleanFalse`
(sympy `true` / `false`, which e.g. `And()` of no arguments returns). -/
inductive LogicExpr : Type where
  | var : String → LogicExpr
  | tru : LogicExpr
  | fls : LogicExpr
  | not : LogicExpr → LogicExpr
  | and : List LogicExpr → LogicExpr
  | or : List LogicExpr → LogicExpr

mutual

/-- Truth-value of an expression under an assignment of booleans to
variable names (the standard sympy boolean semantics). -/
def evalExpr (a : String → Bool) : LogicExpr → Bool
  | .var s => a s
  | .tru => true
  | .fls => false
  | .not e => !evalExpr a e
  | .and es => evalConj a es
  | .or es => evalDisj a es

/-- Conjunction of the truth-values of a list of expressions. -/
def evalConj (a : String → Bool) : List LogicExpr → Bool
  | [] => true
  | e :: es => evalExpr a e && evalConj a es

/-- Disjunction of the truth-values of a list of expressions. -/
def evalDisj (a : String → Bool) : List LogicExpr → Bool
  | [] => false
  | e :: es => evalExpr a e || evalDisj a es

end

/-- Induction principle for `LogicExpr` giving membership hypotheses for the
children lists of `and` / `or` nodes. -/
def LogicExpr.recMem {motive : LogicExpr → Prop}
    (hvar : ∀ s, motive (.var s)) (htru : motive .tru) (hfls : motive .fls)
    (hnot : ∀ e, motive e → motive (.not e))
    (hand : ∀ es, (∀ e ∈ es, motive e) → motive (.and es))
    (hor : ∀ es, (∀ e ∈ es, motive e) → motive (.or es)) : ∀ e, motive e
  | .var s => hvar s
  | .tru => htru
  | .fls => hfls
  | .not e => hnot e (LogicExpr.recMem hvar htru hfls hnot hand hor e)
  | .and es => hand es (fun e he =>
      have : sizeOf e < sizeOf (LogicExpr.and es) := by
        have h1 := List.sizeOf_lt_of_mem he
        simp only [LogicExpr.and.sizeOf_spec]
        omega
      LogicExpr.recMem hvar htru hfls hnot hand hor e)
  | .or es => hor es (fun e he =>
      have : sizeOf e < sizeOf (LogicExpr.or es) := by
        have h1 := List.sizeOf_lt_of_mem he
        simp only [LogicExpr.or.sizeOf_spec]
        omega
      LogicExpr.recMem hvar htru hfls hnot hand hor e)
termination_by e => sizeOf e

theorem evalConj_eq_all (a : String → Bool) (es : List LogicExpr) :
    evalConj a es = es.all (evalExpr a) := by
  induction es with
  | nil => rfl
  | cons e es ih => simp [evalConj, ih]

theorem evalDisj_eq_any (a : String → Bool) (es : List LogicExpr) :
    evalDisj a es = es.any (evalExpr a) := by
  induction es with
  | nil => rfl
  | cons e es ih => simp [evalDisj, ih]

/-- Printing precedence of a sympy boolean node (`Or` < `And` < `Not` <
atoms), as used by sympy's str printer to decide parenthesisation. -/
def precOf : LogicExpr → Nat
  | .or _ => 20
  | .and _ => 30
  | .not _ => 40
  | _ => 1000

mutual

/-- Modelled from sympy's str printer for boolean expressions (the `str(expr)`
texts the app displays and embeds in explanations): variables print as their
name, `True` / `False` for the constants, `~x` for `Not`, and `&` / `|`
joined arguments for `And` / `Or`, parenthesising an argument whose
precedence is lower than the operator's. -/
def exprStr : LogicExpr → String
  | .var s => s
  | .tru => "True"
  | .fls => "False"
  | .not e => "~" ++ (if precOf e < 40 then "(" ++ exprStr e ++ ")" else exprStr e)
  | .and es => String.intercalate " & " (parenList 30 es)
  | .or es => String.intercalate " | " (parenList 20 es)

/-- Print each element of an argument list at the given outer precedence,
parenthesising elements whose precedence is below it. -/
def parenList (outer : Nat) : List LogicExpr → List String
  | [] => []
  | e :: es =>
    (if precOf e < outer then "(" ++ exprStr e ++ ")" else exprStr e) ::
      parenList outer es

end

/-- Python `str` of a tuple of already-printed items, as produced by
`f-string` interpolation of `expr.args` (note the trailing comma Python
prints for a one-element tuple). -/
def tupleStr : List String → String
  | [] => "()"
  | [s] => "(" ++ s ++ ",)"
  | ss => "(" ++ String.intercalate ", " ss ++ ")"

/-- `describe_expr` (`app.py` lines 107–115): the per-node explanation
attached to proof-tree nodes.  `And` / `Or` nodes interpolate the Python
tuple `expr.args`, `Not` interpolates its single operand, and every other
node (a variable or a boolean constant) is reported as a primitive output. -/
def describe_expr : LogicExpr → String
  | .and es => "AND combines: " ++ tupleStr (es.map exprStr)
  | .or es => "OR combines: " ++ tupleStr (es.map exprStr)
  | .not e => "NOT of: " ++ exprStr e
  | e => "Primitive output: " ++ exprStr e

/-- Modelled from sympy: the variadic `And(*args)` constructor applied to the
`evaluated_exprs` list (`app.py` line 79).  With no arguments it returns
`BooleanTrue`, with one argument it returns that argument unchanged, and
otherwise it builds an `And` node over the arguments.  (sympy additionally
flattens nested `And`s, drops duplicate and `True` arguments and orders the
remaining ones canonically; all of that preserves the evaluation semantics
and no claim here depends on it, so it is not modelled.) -/
def mkAnd : List LogicExpr → LogicExpr
  | [] => .tru
  | [e] => e
  | es => .and es

theorem evalExpr_mkAnd (a : String → Bool) (es : List LogicExpr) :
    evalExpr a (mkAnd es) = es.all (evalExpr a) := by
  match es with
  | [] => rfl
  | [e] => simp [mkAnd]
  | e1 :: e2 :: rest => simp [mkAnd, evalExpr, evalConj_eq_all]

/-- Python `dict` assignment `d[k] = v`: when the key is already present its
value is updated in place (the key keeps its original position), otherwise
the pair is appended at the end (Python dicts preserve insertion order). -/
def dictInsert {α : Type} (d : List (String × α)) (k : String) (v : α) :
    List (String × α) :=
  if d.any (fun p => p.1 = k) then
    d.map (fun p => if p.1 = k then (k, v) else p)
  else d ++ [(k, v)]

/-- Build a Python dict by assigning the given key/value pairs in order into
an initially empty dict — the shape of every dict-building loop in
`app.py` (`components_dict`, `subcircuits`, `temporal_info`). -/
def buildDict {α : Type} (entries : List (String × α)) : List (String × α) :=
  entries.foldl (fun d e => dictInsert d e.1 e.2) []

/-- The value of the last entry of `entries` carrying key `k`, if any. -/
def lastAssoc {α : Type} (k : String) : List (String × α) → Option α
  | [] => none
  | p :: rest =>
    match lastAssoc k rest with
    | some v => some v
    | none => if p.1 = k then some p.2 else none

theorem lookup_append {α : Type} (k : String) (d d2 : List (String × α)) :
    List.lookup k (d ++ d2) =
      match List.lookup k d with
      | some v => some v
      | none => List.lookup k d2 := by
  induction d with
  | nil => simp [List.lookup]
  | cons p rest ih =>
    simp only [List.cons_append, List.lookup]
    by_cases h : k = p.1
    · simp [h]
    · have : (k == p.1) = false := by simp [h]
      simp [this, ih]

theorem lookup_eq_none_of_not_any {α : Type} (k : String) (d : List (String × α))
    (h : d.any (fun p => p.1 = k) = false) : List.lookup k d = none := by
  induction d with
  | nil => rfl
  | cons p rest ih =>
    simp only [List.any_cons, Bool.or_eq_false_iff, decide_eq_false_iff_not] at h
    have hb : (k == p.1) = false := beq_eq_false_iff_ne.mpr (fun he => h.1 he.symm)
    simp only [List.lookup, hb]
    exact ih h.2

theorem lookup_map_overwrite_self {α : Type} (d : List (String × α)) (k' : String) (v : α)
    (h : d.any (fun p => p.1 = k') = true) :
    List.lookup k' (d.map (fun p => if p.1 = k' then (k', v) else p)) = some v := by
  induction d with
  | nil => simp at h
  | cons p rest ih =>
    simp only [List.any_cons, Bool.or_eq_true, decide_eq_true_eq] at h
    by_cases hp : p.1 = k'
    · rw [List.map_cons, if_pos hp]
      simp [List.lookup]
    · have hrest : rest.any (fun p => p.1 = k') = true := h.resolve_left hp
      have hb : (k' == p.1) = false := beq_eq_false_iff_ne.mpr (fun he => hp he.symm)
      rw [List.map_cons, if_neg hp]
      simp only [List.lookup, hb]
      exact ih hrest

theorem lookup_map_overwrite_other {α : Type} (d : List (String × α)) (k k' : String)
    (v : α) (hkk : k ≠ k') :
    List.lookup k (d.map (fun p => if p.1 = k' then (k', v) else p)) =
      List.lookup k d := by
  induction d with
  | nil => rfl
  | cons p rest ih =>
    by_cases hp : p.1 = k'
    · have h1 : (k == k') = false := beq_eq_false_iff_ne.mpr hkk
      have h2 : (k == p.1) = false := beq_eq_false_iff_ne.mpr (by rw [hp]; exact hkk)
      rw [List.map_cons, if_pos hp]
      simp only [List.lookup, h1, h2]
      exact ih
    · rw [List.map_cons, if_neg hp]
      by_cases hkp : k = p.1
      · have hb : (k == p.1) = true := beq_iff_eq.mpr hkp
        simp [List.lookup, hb]
      · have hb : (k == p.1) = false := beq_eq_false_iff_ne.mpr hkp
        simp only [List.lookup, hb]
        exact ih

theorem lookup_dictInsert {α : Type} (d : List (String × α)) (k k' : String) (v : α) :
    List.lookup k (dictInsert d k' v) =
      if k = k' then some v else List.lookup k d := by
  unfold dictInsert
  by_cases hany : d.any (fun p => p.1 = k') = true
  · simp only [hany, if_pos]
    by_cases hkk : k = k'
    · subst hkk
      simp [lookup_map_overwrite_self d k v hany]
    · simp [hkk, lookup_map_overwrite_other d k k' v hkk]
  · simp only [Bool.not_eq_true] at hany
    simp only [hany, Bool.false_eq_true, if_neg, not_false_eq_true]
    rw [lookup_append]
    by_cases hkk : k = k'
    · subst hkk
      rw [lookup_eq_none_of_not_any k d hany]
      simp [List.lookup]
    · have : (k == k') = false := by simp [hkk]
      rw [if_neg hkk]
      cases hl : List.lookup k d with
      | some w => rfl
      | none => simp [List.lookup, this]

theorem lookup_foldl_dictInsert {α : Type} (entries : List (String × α)) :
    ∀ (d : List (String × α)) (k : String),
      List.lookup k (entries.foldl (fun d e => dictInsert d e.1 e.2) d) =
        match lastAssoc k entries with
        | some v => some v
        | none => List.lookup k d := by
  induction entries with
  | nil => intro d k; rfl
  | cons p rest ih =>
    intro d k
    simp only [List.foldl_cons, lastAssoc]
    rw [ih (dictInsert d p.1 p.2) k, lookup_dictInsert]
    cases lastAssoc k rest with
    | some w => rfl
    | none =>
      by_cases hkk : k = p.1
      · simp [hkk]
      · have : ¬(p.1 = k) := fun he => hkk (he ▸ rfl)
        simp [hkk, this]

/-- Looking a key up in a dict built by repeated Python assignments yields
the value of the LAST entry with that key (later assignments overwrite). -/
theorem lookup_buildDict {α : Type} (entries : List (String × α)) (k : String) :
    List.lookup k (buildDict entries) = lastAssoc k entries := by
  unfold buildDict
  rw [lookup_foldl_dictInsert]
  cases lastAssoc k entries <;> rfl

theorem dictInsert_keys {α : Type} (d : List (String × α)) (k : String) (v : α) :
    (dictInsert d k v).map Prod.fst =
      if d.any (fun p => p.1 = k) then d.map Prod.fst
      else d.map Prod.fst ++ [k] := by
  unfold dictInsert
  split
  · rw [List.map_map]
    apply List.map_congr_left
    intro p _
    by_cases hp : p.1 = k
    · simp [hp]
    · simp [hp]
  · simp

theorem dictInsert_keys_nodup {α : Type} (d : List (String × α)) (k : String) (v : α)
    (h : (d.map Prod.fst).Nodup) : ((dictInsert d k v).map Prod.fst).Nodup := by
  rw [dictInsert_keys]
  by_cases hany : d.any (fun p => p.1 = k) = true
  · simp [hany, h]
  · simp only [Bool.not_eq_true] at hany
    simp only [hany, Bool.false_eq_true, if_neg, not_false_eq_true]
    rw [List.nodup_append]
    refine ⟨h, List.nodup_singleton k, ?_⟩
    intro x hx hk
    simp only [List.mem_singleton] at hk
    subst hk
    simp only [List.mem_map] at hx
    obtain ⟨p, hp, hpx⟩ := hx
    have h2 := List.any_eq_false.mp hany p hp
    simp only [decide_eq_true_eq] at h2
    exact h2 hpx

theorem foldl_dictInsert_keys_nodup {α : Type} (entries : List (String × α)) :
    ∀ d : List (String × α), (d.map Prod.fst).Nodup →
      ((entries.foldl (fun d e => dictInsert d e.1 e.2) d).map Prod.fst).Nodup := by
  induction entries with
  | nil => intro d h; exact h
  | cons p rest ih =>
    intro d h
    exact ih (dictInsert d p.1 p.2) (dictInsert_keys_nodup d p.1 p.2 h)

/-- The keys of a dict built by repeated Python assignments are distinct. -/
theorem buildDict_keys_nodup {α : Type} (entries : List (String × α)) :
    ((buildDict entries).map Prod.fst).Nodup :=
  foldl_dictInsert_keys_nodup entries [] (by simp)

/-- One circuit component, as collected by the sidebar loop of `app.py`
(lines 22–28) after its formula's right-hand side has been bound to a logic
expression: declared input variable names, output variable name, the bound
expression, and the integer delay.  (The raw formula text and the app's
textual binding step are modelled separately as `bind_formula`.) -/
structure Component where
  inputs : List String
  output : String
  expr : LogicExpr
  delay : Nat

/-- A circuit: the `subcircuits` structure of `app.py` — sub-circuit name ↦
(component name ↦ component) in insertion order. -/
abbrev Circuit : Type := List (String × List (String × Component))

/-- Every component of the circuit in encounter order: sub-circuit order
first, then component order within each sub-circuit (the iteration order of
`for comps in subcircuits.values(): for comp in comps.values()`). -/
def flatComponents (c : Circuit) : List Component :=
  (c.map (fun sc => sc.2.map Prod.snd)).flatten

/-- Any nested fold over the sub-circuit/component loops equals the fold
over the flat encounter-ordered component list. -/
theorem foldl_subcircuits {β : Type} (g : β → Component → β) (c : Circuit) :
    ∀ init : β,
      c.foldl (fun acc sc => sc.2.foldl (fun a p => g a p.2) acc) init =
        (flatComponents c).foldl g init := by
  induction c with
  | nil => intro init; rfl
  | cons sc rest ih =>
    intro init
    simp only [List.foldl_cons, flatComponents, List.map_cons, List.flatten_cons,
      List.foldl_append, List.foldl_map]
    exact ih _

theorem foldl_append_singleton {α β : Type} (f : α → β) (l : List α) :
    ∀ init : List β, l.foldl (fun a x => a ++ [f x]) init = init ++ l.map f := by
  induction l with
  | nil => intro init; simp
  | cons x rest ih =>
    intro init
    simp only [List.foldl_cons, List.map_cons]
    rw [ih]
    simp

/-- The `evaluated_exprs` list of `app.py` (lines 68–75): the bound
expression of every component, appended in encounter order by the nested
loops over sub-circuits and components. -/
def evaluated_exprs (c : Circuit) : List LogicExpr :=
  c.foldl (fun acc sc => sc.2.foldl (fun acc2 comp => acc2 ++ [comp.2.expr]) acc) []

theorem evaluated_exprs_eq (c : Circuit) :
    evaluated_exprs c = (flatComponents c).map (fun comp => comp.expr) := by
  unfold evaluated_exprs
  rw [foldl_subcircuits (fun acc comp => acc ++ [comp.expr]) c []]
  rw [foldl_append_singleton (fun comp => comp.expr) (flatComponents c) []]
  simp

/-- The `temporal_info` dict of `app.py` (lines 69–76): in the same nested
loop, `temporal_info[comp.output] = comp.delay` — a Python dict assignment,
so a later component with the same output variable overwrites the delay. -/
def temporal_info (c : Circuit) : List (String × Nat) :=
  c.foldl
    (fun d sc => sc.2.foldl (fun d2 comp => dictInsert d2 comp.2.output comp.2.delay) d)
    []

theorem temporal_info_eq_buildDict (c : Circuit) :
    temporal_info c =
      buildDict ((flatComponents c).map (fun comp => (comp.output, comp.delay))) := by
  unfold temporal_info buildDict
  rw [foldl_subcircuits (fun d comp => dictInsert d comp.output comp.delay) c []]
  rw [List.foldl_map]

/-- `circuit_logic = And(*evaluated_exprs)` (`app.py` line 79). -/
def circuit_logic (c : Circuit) : LogicExpr := mkAnd (evaluated_exprs c)

/-- The fixed simulation window `t_steps = 3` (`app.py` line 92). -/
def t_steps : Nat := 3

/-- The inner update loop `for t in range(delay, t_steps): row[t] = 1`
applied to one row (indices from `delay` on become 1, earlier entries are
left unchanged). -/
def assertFrom (row : List Nat) (delay : Nat) : List Nat :=
  row.mapIdx (fun t x => if delay ≤ t then 1 else x)

/-- The `sim_table` computation (`app.py` lines 93–96): every variable's row
starts as `[0] * t_steps`; then for each `(output, delay)` entry of
`temporal_info` the output's row entries from index `delay` on are set
to 1.  (`all_vars` is a Python set in the source; the table is keyed by
variable name, so its iteration order is irrelevant and a list is used.) -/
def sim_table (all_vars : List String) (ti : List (String × Nat)) :
    List (String × List Nat) :=
  ti.foldl
    (fun table od =>
      table.map (fun p => if p.1 = od.1 then (p.1, assertFrom p.2 od.2) else p))
    (all_vars.map (fun v => (v, List.replicate t_steps 0)))

theorem lookup_row_update (table : List (String × List Nat)) (k v : String)
    (f : List Nat → List Nat) :
    List.lookup v (table.map (fun p => if p.1 = k then (p.1, f p.2) else p)) =
      if v = k then (List.lookup v table).map f else List.lookup v table := by
  induction table with
  | nil => simp
  | cons p rest ih =>
    by_cases hp : p.1 = k
    · rw [List.map_cons, if_pos hp]
      by_cases hv : v = p.1
      · have hvk : v = k := hv.trans hp
        have hb2 : (k == p.1) = true := beq_iff_eq.mpr hp.symm
        simp [List.lookup, hvk, hb2]
      · have hb : (v == p.1) = false := beq_eq_false_iff_ne.mpr hv
        simp only [List.lookup, hb, ih]
    · rw [List.map_cons, if_neg hp]
      by_cases hv : v = p.1
      · have hb : (v == p.1) = true := beq_iff_eq.mpr hv
        have hvk : ¬v = k := fun he => hp ((hv.symm.trans he) ▸ rfl)
        simp [List.lookup, hb, hvk]
      · have hb : (v == p.1) = false := beq_eq_false_iff_ne.mpr hv
        simp only [List.lookup, hb, ih]

theorem lookup_row_update_assert (table : List (String × List Nat)) (k v : String)
    (dl : Nat) :
    List.lookup v (table.map (fun p => if p.1 = k then (p.1, assertFrom p.2 dl) else p)) =
      if v = k then (List.lookup v table).map (fun row => assertFrom row dl)
      else List.lookup v table :=
  lookup_row_update table k v (fun row => assertFrom row dl)

theorem not_mem_keys_any_false {α : Type} (d : List (String × α)) (k : String)
    (h : k ∉ d.map Prod.fst) : d.any (fun p => p.1 = k) = false := by
  rw [List.any_eq_false]
  intro p hp
  simp only [decide_eq_true_eq]
  intro he
  exact h (List.mem_map.mpr ⟨p, hp, he⟩)

theorem lookup_sim_foldl (ti : List (String × Nat)) :
    ∀ (table : List (String × List Nat)) (v : String),
      (ti.map Prod.fst).Nodup →
      List.lookup v
          (ti.foldl
            (fun table od =>
              table.map (fun p => if p.1 = od.1 then (p.1, assertFrom p.2 od.2) else p))
            table) =
        match List.lookup v ti with
        | some d => (List.lookup v table).map (fun row => assertFrom row d)
        | none => List.lookup v table := by
  induction ti with
  | nil => intro table v _; rfl
  | cons od rest ih =>
    intro table v hnd
    rw [List.map_cons, List.nodup_cons] at hnd
    simp only [List.foldl_cons]
    rw [ih _ v hnd.2, lookup_row_update_assert]
    by_cases hv : v = od.1
    · have hnone : List.lookup v rest = none := by
        apply lookup_eq_none_of_not_any
        apply not_mem_keys_any_false
        rw [hv]
        exact hnd.1
      have hb : (v == od.1) = true := beq_iff_eq.mpr hv
      rw [hnone, if_pos hv]
      simp [List.lookup, hb]
    · have hb : (v == od.1) = false := beq_eq_false_iff_ne.mpr hv
      have hrw : List.lookup v (od :: rest) = List.lookup v rest := by
        simp [List.lookup, hb]
      rw [if_neg hv, hrw]

theorem lookup_sim_init (all_vars : List String) (v : String) (r : List Nat)
    (hv : v ∈ all_vars) :
    List.lookup v (all_vars.map (fun w => (w, r))) = some r := by
  induction all_vars with
  | nil => cases hv
  | cons w rest ih =>
    by_cases hvw : v = w
    · have hb : (v == w) = true := beq_iff_eq.mpr hvw
      simp [List.lookup, hb]
    · have hb : (v == w) = false := beq_eq_false_iff_ne.mpr hvw
      have : v ∈ rest := by
        cases hv with
        | head => exact absurd rfl hvw
        | tail _ h => exact h
      simp only [List.map_cons, List.lookup, hb]
      exact ih this

/-- Row characterisation of `sim_table`: a variable carrying a delay `d` in
`temporal_info` gets the row `[0]*t_steps` overwritten with 1 from index `d`
on; a variable without a `temporal_info` entry keeps the all-zero row. -/
theorem lookup_sim_table (all_vars : List String) (ti : List (String × Nat))
    (v : String) (hnd : (ti.map Prod.fst).Nodup) (hv : v ∈ all_vars) :
    List.lookup v (sim_table all_vars ti) =
      some
        (match List.lookup v ti with
         | some d => assertFrom (List.replicate t_steps 0) d
         | none => List.replicate t_steps 0) := by
  unfold sim_table
  rw [lookup_sim_foldl ti _ v hnd, lookup_sim_init all_vars v _ hv]
  cases List.lookup v ti <;> rfl

theorem assertFrom_replicate_zero (d : Nat) :
    assertFrom (List.replicate t_steps 0) d =
      [if d ≤ 0 then 1 else 0, if d ≤ 1 then 1 else 0, if d ≤ 2 then 1 else 0] := by
  show assertFrom [0, 0, 0] d = _
  simp only [assertFrom, List.mapIdx_cons, List.mapIdx_nil]

/-- Python `str.replace` on character lists: replace every non-overlapping
occurrence of `pat`, scanning left to right (the `.replace` call of
`app.py` line 74).  The extra `Nat` argument is fuel bounding the number of
scan steps; every step consumes at least one character of the string (the
patterns used by the app are variable names, which are non-empty), so fuel
equal to the string's length — as `pyReplace` passes — makes the fuel-out
case unreachable and this a plain left-to-right scan.  The recursion is on
the fuel so the definition stays structural (kernel-computable). -/
def replaceChars (pat rep : List Char) : Nat → List Char → List Char
  | 0, s => s
  | _ + 1, [] => []
  | fuel + 1, c :: rest =>
    if pat ≠ [] ∧ pat.isPrefixOf (c :: rest) then
      rep ++ replaceChars pat rep fuel ((c :: rest).drop pat.length)
    else
      c :: replaceChars pat rep fuel rest

/-- Python `s.replace(pat, rep)` lifted to `String`. -/
def pyReplace (s pat rep : String) : String :=
  String.mk (replaceChars pat.toList rep.toList s.toList.length s.toList)

/-- The single-quote character `'` (written via its code point so that the
Python-generated strings below can be spelled out). -/
def sq : String := String.mk [Char.ofNat 39]

/-- The replacement text `var_map['k']` that `app.py` line 74 substitutes
for the variable name `k`. -/
def varMapRef (k : String) : String := "var_map[" ++ sq ++ k ++ sq ++ "]"

/-- The binding step of `app.py` lines 72–75: starting from the formula text
right of the `=`, replace each known variable name `k` (in `var_map`
iteration order) by `var_map['k']` — a plain substring replacement, applied
cumulatively. -/
def bind_formula (rhs : String) (names : List String) : String :=
  names.foldl (fun acc k => pyReplace acc k (varMapRef k)) rhs

/-- Truth-value of a literal (a variable name with a polarity). -/
def evalLit (a : String → Bool) (l : String × Bool) : Bool :=
  if l.2 then a l.1 else !a l.1

/-- Truth-value of a conjunctive clause of literals. -/
def evalClause (a : String → Bool) (c : List (String × Bool)) : Bool :=
  c.all (evalLit a)

/-- Truth-value of a disjunction of conjunctive clauses. -/
def evalClauses (a : String → Bool) (d : List (List (String × Bool))) : Bool :=
  d.any (evalClause a)

/-- All ways of conjoining one clause of the first list with one of the
second (distribution of And over Or at the clause level). -/
def conjProd (xss yss : List (List (String × Bool))) : List (List (String × Bool)) :=
  xss.flatMap (fun xs => yss.map (fun ys => xs ++ ys))

theorem any_and_left {α : Type} (b : Bool) (p : α → Bool) (l : List α) :
    (l.any fun x => b && p x) = (b && l.any p) := by
  induction l with
  | nil => simp
  | cons x rest ih =>
    simp only [List.any_cons, ih]
    cases b <;> simp

theorem evalClause_append (a : String → Bool) (xs ys : List (String × Bool)) :
    evalClause a (xs ++ ys) = (evalClause a xs && evalClause a ys) := by
  simp [evalClause, List.all_append]

theorem evalClauses_append (a : String → Bool) (x y : List (List (String × Bool))) :
    evalClauses a (x ++ y) = (evalClauses a x || evalClauses a y) := by
  simp [evalClauses, List.any_append]

theorem evalClauses_conjProd (a : String → Bool) (x y : List (List (String × Bool))) :
    evalClauses a (conjProd x y) = (evalClauses a x && evalClauses a y) := by
  induction x with
  | nil => simp [conjProd, evalClauses]
  | cons xs x ih =>
    simp only [conjProd, List.flatMap_cons, evalClauses_append]
    have h1 : evalClauses a (y.map (fun ys => xs ++ ys)) =
        (evalClause a xs && evalClauses a y) := by
      simp only [evalClauses, List.any_map]
      have : ((fun c => evalClause a c) ∘ fun ys => xs ++ ys) =
          fun ys => evalClause a xs && evalClause a ys := by
        funext ys
        exact evalClause_append a xs ys
      rw [this, any_and_left]
    rw [h1]
    rw [show (x.flatMap fun xs => List.map (fun ys => xs ++ ys) y) = conjProd x y from rfl,
      ih]
    simp only [evalClauses, List.any_cons]
    cases evalClause a xs <;> cases List.any x (evalClause a) <;>
      cases List.any y (evalClause a) <;> rfl

mutual

/-- Clause-level disjunctive normal form of an expression (positive
polarity): a list of conjunctive clauses whose disjunction is equivalent to
the expression. -/
def dnfPos : LogicExpr → List (List (String × Bool))
  | .var s => [[(s, true)]]
  | .tru => [[]]
  | .fls => []
  | .not e => dnfNeg e
  | .and es => dnfConjPos es
  | .or es => dnfDisjPos es

/-- Clause-level DNF of the NEGATION of an expression. -/
def dnfNeg : LogicExpr → List (List (String × Bool))
  | .var s => [[(s, false)]]
  | .tru => []
  | .fls => [[]]
  | .not e => dnfPos e
  | .and es => dnfDisjNeg es
  | .or es => dnfConjNeg es

/-- DNF of the conjunction of a list of expressions. -/
def dnfConjPos : List LogicExpr → List (List (String × Bool))
  | [] => [[]]
  | e :: es => conjProd (dnfPos e) (dnfConjPos es)

/-- DNF of the disjunction of a list of expressions. -/
def dnfDisjPos : List LogicExpr → List (List (String × Bool))
  | [] => []
  | e :: es => dnfPos e ++ dnfDisjPos es

/-- DNF of the conjunction of the negations of a list of expressions. -/
def dnfConjNeg : List LogicExpr → List (List (String × Bool))
  | [] => [[]]
  | e :: es => conjProd (dnfNeg e) (dnfConjNeg es)

/-- DNF of the disjunction of the negations of a list of expressions. -/
def dnfDisjNeg : List LogicExpr → List (List (String × Bool))
  | [] => []
  | e :: es => dnfNeg e ++ dnfDisjNeg es

end

mutual

theorem dnfPos_correct (a : String → Bool) :
    ∀ e : LogicExpr, evalClauses a (dnfPos e) = evalExpr a e
  | .var s => by simp [dnfPos, evalClauses, evalClause, evalLit, evalExpr]
  | .tru => by simp [dnfPos, evalClauses, evalClause, evalExpr]
  | .fls => by simp [dnfPos, evalClauses, evalExpr]
  | .not e => by
    rw [show dnfPos (.not e) = dnfNeg e from rfl, dnfNeg_correct a e]
    rfl
  | .and es => by
    rw [show dnfPos (.and es) = dnfConjPos es from rfl, dnfConjPos_correct a es]
    rfl
  | .or es => by
    rw [show dnfPos (.or es) = dnfDisjPos es from rfl, dnfDisjPos_correct a es]
    rfl

theorem dnfNeg_correct (a : String → Bool) :
    ∀ e : LogicExpr, evalClauses a (dnfNeg e) = !evalExpr a e
  | .var s => by simp [dnfNeg, evalClauses, evalClause, evalLit, evalExpr]
  | .tru => by simp [dnfNeg, evalClauses, evalExpr]
  | .fls => by simp [dnfNeg, evalClauses, evalClause, evalExpr]
  | .not e => by
    rw [show dnfNeg (.not e) = dnfPos e from rfl, dnfPos_correct a e]
    simp [evalExpr]
  | .and es => by
    rw [show dnfNeg (.and es) = dnfDisjNeg es from rfl, dnfDisjNeg_correct a es]
    simp [evalExpr]
  | .or es => by
    rw [show dnfNeg (.or es) = dnfConjNeg es from rfl, dnfConjNeg_correct a es]
    simp [evalExpr]

theorem dnfConjPos_correct (a : String → Bool) :
    ∀ es : List LogicExpr, evalClauses a (dnfConjPos es) = evalConj a es
  | [] => by simp [dnfConjPos, evalClauses, evalClause, evalConj]
  | e :: es => by
    rw [show dnfConjPos (e :: es) = conjProd (dnfPos e) (dnfConjPos es) from rfl,
      evalClauses_conjProd, dnfPos_correct a e, dnfConjPos_correct a es]
    rfl

theorem dnfDisjPos_correct (a : String → Bool) :
    ∀ es : List LogicExpr, evalClauses a (dnfDisjPos es) = evalDisj a es
  | [] => by simp [dnfDisjPos, evalClauses, evalDisj]
  | e :: es => by
    rw [show dnfDisjPos (e :: es) = dnfPos e ++ dnfDisjPos es from rfl,
      evalClauses_append, dnfPos_correct a e, dnfDisjPos_correct a es]
    rfl

theorem dnfConjNeg_correct (a : String → Bool) :
    ∀ es : List LogicExpr, evalClauses a (dnfConjNeg es) = !evalDisj a es
  | [] => by simp [dnfConjNeg, evalClauses, evalClause, evalDisj]
  | e :: es => by
    rw [show dnfConjNeg (e :: es) = conjProd (dnfNeg e) (dnfConjNeg es) from rfl,
      evalClauses_conjProd, dnfNeg_correct a e, dnfConjNeg_correct a es]
    simp [evalDisj]

theorem dnfDisjNeg_correct (a : String → Bool) :
    ∀ es : List LogicExpr, evalClauses a (dnfDisjNeg es) = !evalConj a es
  | [] => by simp [dnfDisjNeg, evalClauses, evalConj]
  | e :: es => by
    rw [show dnfDisjNeg (e :: es) = dnfNeg e ++ dnfDisjNeg es from rfl,
      evalClauses_append, dnfNeg_correct a e, dnfDisjNeg_correct a es]
    simp [evalConj]

end

/-- A literal as an expression: a variable or its negation. -/
def litToExpr (l : String × Bool) : LogicExpr :=
  if l.2 then .var l.1 else .not (.var l.1)

/-- A conjunctive clause as an `And` of literals. -/
def clauseToExpr (c : List (String × Bool)) : LogicExpr :=
  .and (c.map litToExpr)

/-- Modelled from the spec: `simplify_logic(circuit_logic, form=dnf)`
(`app.py` line 80) calls sympy's simplifier, library code outside this
repository.  Following the spec's contract — "produce a simplified
canonical disjunctive-normal-form (DNF) equivalent — a disjunction of
conjunctions of literals … logically equivalent to the input for every
assignment" — it is modelled as the structural DNF expansion: the
disjunction of the conjunctive clauses computed by `dnfPos`.  (sympy
additionally minimises the clause set; minimisation is not part of any
claim checked here.) -/
def simplify_logic (e : LogicExpr) : LogicExpr :=
  .or ((dnfPos e).map clauseToExpr)

/-- Recogniser: is this expression a single literal? -/
def isLit : LogicExpr → Bool
  | .var _ => true
  | .not (.var _) => true
  | _ => false

/-- Recogniser: is this expression a conjunction of literals? -/
def isConjOfLits : LogicExpr → Bool
  | .and ls => ls.all isLit
  | _ => false

/-- Recogniser: is this expression a disjunction of conjunctions of
literals, i.e. in disjunctive normal form? -/
def isDNF : LogicExpr → Bool
  | .or cs => cs.all isConjOfLits
  | _ => false

theorem evalExpr_litToExpr (a : String → Bool) (l : String × Bool) :
    evalExpr a (litToExpr l) = evalLit a l := by
  unfold litToExpr evalLit
  by_cases h : l.2
  · simp [h, evalExpr]
  · simp [h, evalExpr]

theorem list_all_congr {α : Type} (l : List α) (p q : α → Bool)
    (h : ∀ x ∈ l, p x = q x) : l.all p = l.all q := by
  induction l with
  | nil => rfl
  | cons x rest ih =>
    simp only [List.all_cons]
    rw [h x (by simp), ih (fun y hy => h y (by simp [hy]))]

theorem list_any_congr {α : Type} (l : List α) (p q : α → Bool)
    (h : ∀ x ∈ l, p x = q x) : l.any p = l.any q := by
  induction l with
  | nil => rfl
  | cons x rest ih =>
    simp only [List.any_cons]
    rw [h x (by simp), ih (fun y hy => h y (by simp [hy]))]

theorem all_map_eq {α β : Type} (l : List α) (f : α → β) (p : β → Bool)
    (q : α → Bool) (h : ∀ x ∈ l, p (f x) = q x) : (l.map f).all p = l.all q := by
  induction l with
  | nil => rfl
  | cons x rest ih =>
    simp only [List.map_cons, List.all_cons]
    rw [h x (by simp), ih (fun y hy => h y (by simp [hy]))]

theorem any_map_eq {α β : Type} (l : List α) (f : α → β) (p : β → Bool)
    (q : α → Bool) (h : ∀ x ∈ l, p (f x) = q x) : (l.map f).any p = l.any q := by
  induction l with
  | nil => rfl
  | cons x rest ih =>
    simp only [List.map_cons, List.any_cons]
    rw [h x (by simp), ih (fun y hy => h y (by simp [hy]))]

theorem evalExpr_clauseToExpr (a : String → Bool) (c : List (String × Bool)) :
    evalExpr a (clauseToExpr c) = evalClause a c := by
  unfold clauseToExpr
  rw [show evalExpr a (.and (c.map litToExpr)) = evalConj a (c.map litToExpr) from rfl,
    evalConj_eq_all]
  rw [show evalClause a c = c.all (evalLit a) from rfl]
  exact all_map_eq c litToExpr (evalExpr a) (evalLit a)
    (fun l _ => evalExpr_litToExpr a l)

theorem evalExpr_simplify (a : String → Bool) (e : LogicExpr) :
    evalExpr a (simplify_logic e) = evalExpr a e := by
  unfold simplify_logic
  rw [show evalExpr a (.or ((dnfPos e).map clauseToExpr)) =
      evalDisj a ((dnfPos e).map clauseToExpr) from rfl,
    evalDisj_eq_any]
  rw [any_map_eq (dnfPos e) clauseToExpr (evalExpr a) (evalClause a)
    (fun c _ => evalExpr_clauseToExpr a c)]
  exact dnfPos_correct a e

theorem isDNF_simplify (e : LogicExpr) : isDNF (simplify_logic e) = true := by
  show ((dnfPos e).map clauseToExpr).all isConjOfLits = true
  rw [List.all_eq_true]
  intro x hx
  obtain ⟨c, _, rfl⟩ := List.mem_map.mp hx
  show isConjOfLits (clauseToExpr c) = true
  show (c.map litToExpr).all isLit = true
  rw [List.all_eq_true]
  intro y hy
  obtain ⟨l, _, rfl⟩ := List.mem_map.mp hy
  show isLit (litToExpr l) = true
  unfold litToExpr isLit
  by_cases h : l.2 <;> simp [h]

mutual

/-- The free variable names of an expression, with multiplicity (sympy's
`free_symbols` is the set of these; duplication is harmless here). -/
def varsOf : LogicExpr → List String
  | .var s => [s]
  | .tru => []
  | .fls => []
  | .not e => varsOf e
  | .and es => varsList es
  | .or es => varsList es

/-- The free variable names of a list of expressions. -/
def varsList : List LogicExpr → List String
  | [] => []
  | e :: es => varsOf e ++ varsList es

end

/-- All assignments of booleans to the given variable names, each
represented as an ordered association list over exactly those names. -/
def allAssignments : List String → List (List (String × Bool))
  | [] => [[]]
  | v :: vs => (allAssignments vs).flatMap (fun m => [(v, false) :: m, (v, true) :: m])

/-- The total assignment an association list denotes (unlisted names read
as false; the search only ever consults listed names). -/
def assignOf (m : List (String × Bool)) : String → Bool :=
  fun s => (m.lookup s).getD false

/-- Modelled from the spec: `satisfiable(circuit_logic)` (`app.py` line 84)
calls sympy's SAT procedure, library code outside this repository.
Following the spec's contract — "returns one satisfying assignment (mapping
every free variable to 0/1) if one exists … else signals unsatisfiable",
with exhaustive search over all assignments named as the acceptable
reference algorithm — it is modelled as exhaustive search over all
assignments of the expression's variables. -/
def satisfiable (e : LogicExpr) : Option (List (String × Bool)) :=
  (allAssignments (varsOf e)).find? (fun m => evalExpr (assignOf m) e)

theorem mem_allAssignments (a : String → Bool) :
    ∀ vs : List String, vs.map (fun v => (v, a v)) ∈ allAssignments vs := by
  intro vs
  induction vs with
  | nil => simp [allAssignments]
  | cons v vs ih =>
    simp only [List.map_cons, allAssignments, List.mem_flatMap]
    refine ⟨vs.map (fun v => (v, a v)), ih, ?_⟩
    cases h : a v <;> simp [h]

theorem assignOf_map_eq (a : String → Bool) (vs : List String) (s : String)
    (hs : s ∈ vs) : assignOf (vs.map (fun v => (v, a v))) s = a s := by
  induction vs with
  | nil => cases hs
  | cons v vs ih =>
    by_cases hsv : s = v
    · subst hsv
      simp [assignOf, List.lookup]
    · have hb : (s == v) = false := beq_eq_false_iff_ne.mpr hsv
      have hs2 : s ∈ vs := by
        cases hs with
        | head => exact absurd rfl hsv
        | tail _ h => exact h
      simp only [List.map_cons, assignOf, List.lookup, hb]
      exact ih hs2

mutual

theorem evalExpr_congr (a b : String → Bool) :
    ∀ e : LogicExpr, (∀ s ∈ varsOf e, a s = b s) → evalExpr a e = evalExpr b e
  | .var s => fun h => by simp [evalExpr, h s (by simp [varsOf])]
  | .tru => fun _ => rfl
  | .fls => fun _ => rfl
  | .not e => fun h => by
    rw [show evalExpr a (.not e) = !evalExpr a e from rfl,
      show evalExpr b (.not e) = !evalExpr b e from rfl,
      evalExpr_congr a b e (fun s hs => h s (by simpa [varsOf] using hs))]
  | .and es => fun h => by
    rw [show evalExpr a (.and es) = evalConj a es from rfl,
      show evalExpr b (.and es) = evalConj b es from rfl,
      evalConj_congr a b es (fun s hs => h s (by simpa [varsOf] using hs))]
  | .or es => fun h => by
    rw [show evalExpr a (.or es) = evalDisj a es from rfl,
      show evalExpr b (.or es) = evalDisj b es from rfl,
      evalDisj_congr a b es (fun s hs => h s (by simpa [varsOf] using hs))]

theorem evalConj_congr (a b : String → Bool) :
    ∀ es : List LogicExpr, (∀ s ∈ varsList es, a s = b s) →
      evalConj a es = evalConj b es
  | [] => fun _ => rfl
  | e :: es => fun h => by
    rw [show evalConj a (e :: es) = (evalExpr a e && evalConj a es) from rfl,
      show evalConj b (e :: es) = (evalExpr b e && evalConj b es) from rfl,
      evalExpr_congr a b e (fun s hs => h s (by simp [varsList, hs])),
      evalConj_congr a b es (fun s hs => h s (by simp [varsList, hs]))]

theorem evalDisj_congr (a b : String → Bool) :
    ∀ es : List LogicExpr, (∀ s ∈ varsList es, a s = b s) →
      evalDisj a es = evalDisj b es
  | [] => fun _ => rfl
  | e :: es => fun h => by
    rw [show evalDisj a (e :: es) = (evalExpr a e || evalDisj a es) from rfl,
      show evalDisj b (e :: es) = (evalExpr b e || evalDisj b es) from rfl,
      evalExpr_congr a b e (fun s hs => h s (by simp [varsList, hs])),
      evalDisj_congr a b es (fun s hs => h s (by simp [varsList, hs]))]

end

/-- One node of the rendered proof tree: the graphviz node id `n{counter}`,
the displayed label `str(expr)`, and the tooltip explanation produced by
`describe_expr` (`dot.node(node_id, label=str(expr), URL=..., tooltip=
explanation)` at `app.py` line 125; the URL is `#` followed by the id and
carries no extra information). -/
structure ProofNode where
  id : String
  label : String
  explanation : String

/-- The node id `f"n{counter[0]}"` (`app.py` line 120). -/
def nodeId (counter : Nat) : String := "n" ++ Nat.repr counter

mutual

/-- `build_proof_tree_clickable` (`app.py` lines 117–133) with its hidden
mutable state made explicit: the graphviz `dot` accumulator becomes the
returned node list and edge list (in emission order), and the shared
one-cell `counter` list becomes a threaded value returned as the third
component.  A node is emitted (consuming one counter value), then the edge
from its parent, then the children are built in argument order: the
operands of an `And` / `Or`, the single operand of a `Not`, nothing for a
leaf.  A top-level call is `build_proof_tree e none 0`. -/
def build_proof_tree (e : LogicExpr) (parent : Option String) (counter : Nat) :
    List ProofNode × List (String × String) × Nat :=
  let nid := nodeId counter
  let node : ProofNode := ⟨nid, exprStr e, describe_expr e⟩
  let pedges : List (String × String) :=
    match parent with
    | some p => [(p, nid)]
    | none => []
  match e with
  | .and es =>
    let r := build_children es nid (counter + 1)
    (node :: r.1, pedges ++ r.2.1, r.2.2)
  | .or es =>
    let r := build_children es nid (counter + 1)
    (node :: r.1, pedges ++ r.2.1, r.2.2)
  | .not e1 =>
    let r := build_proof_tree e1 (some nid) (counter + 1)
    (node :: r.1, pedges ++ r.2.1, r.2.2)
  | _ => ([node], pedges, counter + 1)

/-- The `for arg in expr.args:` recursion of `build_proof_tree_clickable`:
build each child in order, threading the counter. -/
def build_children (es : List LogicExpr) (parentId : String) (counter : Nat) :
    List ProofNode × List (String × String) × Nat :=
  match es with
  | [] => ([], [], counter)
  | e :: rest =>
    let r1 := build_proof_tree e (some parentId) counter
    let r2 := build_children rest parentId r1.2.2
    (r1.1 ++ r2.1, r1.2.1 ++ r2.2.1, r2.2.2)

end

mutual

/-- Number of nodes the proof-tree builder creates for an expression. -/
def nodeCount : LogicExpr → Nat
  | .not e => 1 + nodeCount e
  | .and es => 1 + nodeCountList es
  | .or es => 1 + nodeCountList es
  | _ => 1

/-- Number of nodes created for a list of sibling subtrees. -/
def nodeCountList : List LogicExpr → Nat
  | [] => 0
  | e :: es => nodeCount e + nodeCountList es

end

mutual

/-- The builder consumes exactly `nodeCount e` counter values and assigns
the ids `n{c}, n{c+1}, …` to the nodes in emission (pre-order) order. -/
theorem build_proof_tree_ids :
    ∀ (e : LogicExpr) (parent : Option String) (c : Nat),
      (build_proof_tree e parent c).2.2 = c + nodeCount e ∧
        (build_proof_tree e parent c).1.map (fun n => n.id) =
          (List.range (nodeCount e)).map (fun i => nodeId (c + i))
  | .var s => fun parent c => by
    constructor
    · rfl
    · rfl
  | .tru => fun parent c => by
    constructor
    · rfl
    · rfl
  | .fls => fun parent c => by
    constructor
    · rfl
    · rfl
  | .not e1 => fun parent c => by
    obtain ⟨h1, h2⟩ := build_proof_tree_ids e1 (some (nodeId c)) (c + 1)
    constructor
    · show (build_proof_tree e1 (some (nodeId c)) (c + 1)).2.2 = c + nodeCount (.not e1)
      rw [h1, show nodeCount (.not e1) = 1 + nodeCount e1 from rfl]
      omega
    · show nodeId c :: (build_proof_tree e1 (some (nodeId c)) (c + 1)).1.map (fun n => n.id) = _
      rw [h2, show nodeCount (.not e1) = 1 + nodeCount e1 from rfl]
      rw [show 1 + nodeCount e1 = nodeCount e1 + 1 from Nat.add_comm 1 _,
        List.range_succ_eq_map, List.map_cons, List.map_map]
      congr 1
      apply List.map_congr_left
      intro i _
      show nodeId (c + 1 + i) = nodeId (c + (Nat.succ i))
      congr 1
      omega
  | .and es => fun parent c => by
    obtain ⟨h1, h2⟩ := build_children_ids es (nodeId c) (c + 1)
    constructor
    · show (build_children es (nodeId c) (c + 1)).2.2 = c + nodeCount (.and es)
      rw [h1, show nodeCount (.and es) = 1 + nodeCountList es from rfl]
      omega
    · show nodeId c :: (build_children es (nodeId c) (c + 1)).1.map (fun n => n.id) = _
      rw [h2, show nodeCount (.and es) = 1 + nodeCountList es from rfl]
      rw [show 1 + nodeCountList es = nodeCountList es + 1 from Nat.add_comm 1 _,
        List.range_succ_eq_map, List.map_cons, List.map_map]
      congr 1
      apply List.map_congr_left
      intro i _
      show nodeId (c + 1 + i) = nodeId (c + (Nat.succ i))
      congr 1
      omega
  | .or es => fun parent c => by
    obtain ⟨h1, h2⟩ := build_children_ids es (nodeId c) (c + 1)
    constructor
    · show (build_children es (nodeId c) (c + 1)).2.2 = c + nodeCount (.or es)
      rw [h1, show nodeCount (.or es) = 1 + nodeCountList es from rfl]
      omega
    · show nodeId c :: (build_children es (nodeId c) (c + 1)).1.map (fun n => n.id) = _
      rw [h2, show nodeCount (.or es) = 1 + nodeCountList es from rfl]
      rw [show 1 + nodeCountList es = nodeCountList es + 1 from Nat.add_comm 1 _,
        List.range_succ_eq_map, List.map_cons, List.map_map]
      congr 1
      apply List.map_congr_left
      intro i _
      show nodeId (c + 1 + i) = nodeId (c + (Nat.succ i))
      congr 1
      omega

/-- Sibling subtrees consume consecutive counter ranges, in order. -/
theorem build_children_ids :
    ∀ (es : List LogicExpr) (pid : String) (c : Nat),
      (build_children es pid c).2.2 = c + nodeCountList es ∧
        (build_children es pid c).1.map (fun n => n.id) =
          (List.range (nodeCountList es)).map (fun i => nodeId (c + i))
  | [] => fun pid c => by
    constructor
    · rfl
    · rfl
  | e :: rest => fun pid c => by
    obtain ⟨h1, h2⟩ := build_proof_tree_ids e (some pid) c
    obtain ⟨h3, h4⟩ := build_children_ids rest pid (build_proof_tree e (some pid) c).2.2
    constructor
    · show (build_children rest pid (build_proof_tree e (some pid) c).2.2).2.2 =
        c + nodeCountList (e :: rest)
      rw [h3, h1, show nodeCountList (e :: rest) = nodeCount e + nodeCountList rest from rfl]
      omega
    · show ((build_proof_tree e (some pid) c).1 ++
        (build_children rest pid (build_proof_tree e (some pid) c).2.2).1).map (fun n => n.id) = _
      rw [List.map_append, h2, h4, h1,
        show nodeCountList (e :: rest) = nodeCount e + nodeCountList rest from rfl,
        List.range_add, List.map_append, List.map_map]
      congr 1
      apply List.map_congr_left
      intro i _
      show nodeId (c + nodeCount e + i) = nodeId (c + (nodeCount e + i))
      congr 1
      omega

end

/-- The digit list underlying `Nat.repr`, defined by structural division
(most significant digit first). -/
def decDigits (n : Nat) : List Char :=
  if n / 10 = 0 then [Nat.digitChar (n % 10)]
  else decDigits (n / 10) ++ [Nat.digitChar (n % 10)]
termination_by n
decreasing_by
  exact Nat.div_lt_self (Nat.pos_of_ne_zero (by omega)) (by omega)

theorem toDigitsCore_append (fuel n : Nat) (ds : List Char) :
    Nat.toDigitsCore 10 fuel n ds = Nat.toDigitsCore 10 fuel n [] ++ ds := by
  induction fuel generalizing n ds with
  | zero => rfl
  | succ f ih =>
    simp only [Nat.toDigitsCore]
    by_cases h : n / 10 = 0
    · simp [h]
    · simp only [h, if_neg, not_false_eq_true]
      rw [ih (n / 10) (Nat.digitChar (n % 10) :: ds),
        ih (n / 10) [Nat.digitChar (n % 10)]]
      simp

theorem toDigitsCore_eq_decDigits (fuel n : Nat) (hf : n < fuel) :
    Nat.toDigitsCore 10 fuel n [] = decDigits n := by
  induction fuel generalizing n with
  | zero => omega
  | succ f ih =>
    simp only [Nat.toDigitsCore]
    by_cases h : n / 10 = 0
    · rw [decDigits]
      simp [h]
    · simp only [h, if_neg, not_false_eq_true]
      rw [toDigitsCore_append, ih (n / 10)
        (by
          have h1 : n / 10 < n := Nat.div_lt_self (Nat.pos_of_ne_zero (by omega)) (by omega)
          omega)]
      conv_rhs => rw [decDigits]
      simp [h]

theorem toDigits_eq_decDigits (n : Nat) : Nat.toDigits 10 n = decDigits n :=
  toDigitsCore_eq_decDigits (n + 1) n (Nat.lt_succ_self n)

/-- Decimal value of a digit-character list (inverse of `decDigits`). -/
def decValue (ds : List Char) : Nat :=
  ds.foldl (fun acc c => 10 * acc + (c.toNat - 48)) 0

theorem decValue_aux (ds : List Char) :
    ∀ acc : Nat, ds.foldl (fun acc c => 10 * acc + (c.toNat - 48)) acc =
      acc * 10 ^ ds.length + decValue ds := by
  induction ds with
  | nil => intro acc; simp [decValue]
  | cons c rest ih =>
    intro acc
    simp only [List.foldl_cons, decValue, List.length_cons]
    rw [ih (10 * acc + (c.toNat - 48)), ih (10 * 0 + (c.toNat - 48))]
    ring

theorem digitChar_toNat (d : Nat) (hd : d < 10) : (Nat.digitChar d).toNat = 48 + d := by
  interval_cases d <;> rfl

theorem decValue_decDigits (n : Nat) : decValue (decDigits n) = n := by
  induction n using Nat.strong_induction_on with
  | _ n ih =>
    rw [decDigits]
    by_cases h : n / 10 = 0
    · simp only [h, if_pos]
      have hd : (Nat.digitChar (n % 10)).toNat = 48 + n % 10 :=
        digitChar_toNat (n % 10) (Nat.mod_lt _ (by omega))
      simp only [decValue, List.foldl_cons, List.foldl_nil, hd]
      omega
    · simp only [h, if_neg, not_false_eq_true]
      have h1 : n / 10 < n := Nat.div_lt_self (Nat.pos_of_ne_zero (by omega)) (by omega)
      simp only [decValue, List.foldl_append, List.foldl_cons, List.foldl_nil]
      rw [show (List.foldl (fun acc c => 10 * acc + (c.toNat - 48)) 0 (decDigits (n / 10))) =
        decValue (decDigits (n / 10)) from rfl, ih (n / 10) h1]
      rw [digitChar_toNat (n % 10) (by omega)]
      omega

theorem nat_repr_injective (m n : Nat) (h : Nat.repr m = Nat.repr n) : m = n := by
  unfold Nat.repr at h
  rw [toDigits_eq_decDigits, toDigits_eq_decDigits] at h
  have h2 : decDigits m = decDigits n := by
    have := congrArg String.data h
    simpa [List.asString] using this
  calc m = decValue (decDigits m) := (decValue_decDigits m).symm
    _ = decValue (decDigits n) := by rw [h2]
    _ = n := decValue_decDigits n

theorem nodeId_injective (m n : Nat) (h : nodeId m = nodeId n) : m = n := by
  unfold nodeId at h
  have h2 : ("n" ++ Nat.repr m).data = ("n" ++ Nat.repr n).data := congrArg String.data h
  simp only [String.data_append] at h2
  have h3 : (Nat.repr m).data = (Nat.repr n).data := List.append_cancel_left h2
  exact nat_repr_injective m n (by
    cases hm : Nat.repr m with
    | mk dm =>
      cases hn : Nat.repr n with
      | mk dn =>
        rw [hm, hn] at h3
        simpa using congrArg String.mk h3)

mutual

/-- If `q` is no node id of the counter range a subtree build uses, the only
edge of the build with source `q` is the edge from the parent (when the
parent is `q`); in particular no deeper node is a child of `q`. -/
theorem build_edge_src_count :
    ∀ (e : LogicExpr) (parent : Option String) (c : Nat) (q : String),
      (∀ k, c ≤ k → q ≠ nodeId k) →
      ((build_proof_tree e parent c).2.1.filter (fun ed => ed.1 = q)).length =
        (if parent = some q then 1 else 0)
  | .var s => fun parent c q hq => by
    cases parent with
    | none => simp [build_proof_tree]
    | some p =>
      by_cases hp : p = q
      · simp [build_proof_tree, hp]
      · simp [build_proof_tree, hp]
  | .tru => fun parent c q hq => by
    cases parent with
    | none => simp [build_proof_tree]
    | some p =>
      by_cases hp : p = q
      · simp [build_proof_tree, hp]
      · simp [build_proof_tree, hp]
  | .fls => fun parent c q hq => by
    cases parent with
    | none => simp [build_proof_tree]
    | some p =>
      by_cases hp : p = q
      · simp [build_proof_tree, hp]
      · simp [build_proof_tree, hp]
  | .not e1 => fun parent c q hq => by
    have hsub := build_edge_src_count e1 (some (nodeId c)) (c + 1) q
      (fun k hk => hq k (by omega))
    have hne : ¬(nodeId c = q) := fun he => (hq c (Nat.le_refl c)) he.symm
    show (((match parent with
          | some p => [(p, nodeId c)]
          | none => []) ++
        (build_proof_tree e1 (some (nodeId c)) (c + 1)).2.1).filter
          (fun ed => ed.1 = q)).length = _
    rw [List.filter_append, List.length_append, hsub]
    have h0 : (if some (nodeId c) = some q then 1 else 0) = 0 := by
      simp [hne]
    rw [h0]
    cases parent with
    | none => simp
    | some p =>
      by_cases hp : p = q
      · simp [hp]
      · simp [hp]
  | .and es => fun parent c q hq => by
    have hsub := build_children_edge_src_count es (nodeId c) (c + 1) q
      (fun k hk => hq k (by omega))
    have hne : ¬(nodeId c = q) := fun he => (hq c (Nat.le_refl c)) he.symm
    show (((match parent with
          | some p => [(p, nodeId c)]
          | none => []) ++
        (build_children es (nodeId c) (c + 1)).2.1).filter
          (fun ed => ed.1 = q)).length = _
    rw [List.filter_append, List.length_append, hsub]
    have h0 : (if nodeId c = q then es.length else 0) = 0 := by
      simp [hne]
    rw [h0]
    cases parent with
    | none => simp
    | some p =>
      by_cases hp : p = q
      · simp [hp]
      · simp [hp]
  | .or es => fun parent c q hq => by
    have hsub := build_children_edge_src_count es (nodeId c) (c + 1) q
      (fun k hk => hq k (by omega))
    have hne : ¬(nodeId c = q) := fun he => (hq c (Nat.le_refl c)) he.symm
    show (((match parent with
          | some p => [(p, nodeId c)]
          | none => []) ++
        (build_children es (nodeId c) (c + 1)).2.1).filter
          (fun ed => ed.1 = q)).length = _
    rw [List.filter_append, List.length_append, hsub]
    have h0 : (if nodeId c = q then es.length else 0) = 0 := by
      simp [hne]
    rw [h0]
    cases parent with
    | none => simp
    | some p =>
      by_cases hp : p = q
      · simp [hp]
      · simp [hp]

/-- Building a list of sibling subtrees under parent id `pid` emits exactly
one edge with source `pid` per sibling (and none from ids of the counter
range, which `q` avoids by hypothesis). -/
theorem build_children_edge_src_count :
    ∀ (es : List LogicExpr) (pid : String) (c : Nat) (q : String),
      (∀ k, c ≤ k → q ≠ nodeId k) →
      ((build_children es pid c).2.1.filter (fun ed => ed.1 = q)).length =
        (if pid = q then es.length else 0)
  | [] => fun pid c q hq => by
    by_cases hp : pid = q
    · simp [build_children, hp]
    · simp [build_children, hp]
  | e :: rest => fun pid c q hq => by
    have h1 := build_edge_src_count e (some pid) c q hq
    have hcnt := (build_proof_tree_ids e (some pid) c).1
    have h2 := build_children_edge_src_count rest pid (build_proof_tree e (some pid) c).2.2 q
      (by
        rw [hcnt]
        intro k hk
        exact hq k (by omega))
    show (((build_proof_tree e (some pid) c).2.1 ++
        (build_children rest pid (build_proof_tree e (some pid) c).2.2).2.1).filter
          (fun ed => ed.1 = q)).length = _
    rw [List.filter_append, List.length_append, h1, h2]
    by_cases hp : pid = q
    · simp [hp, List.length_cons]
      omega
    · simp [hp]

end

/-- `getLast?` of a cons, written as a match on the tail. -/
theorem getLast_cons_match {α : Type} (x : α) (xs : List α) :
    (x :: xs).getLast? =
      match xs.getLast? with
      | some y => some y
      | none => some x := by
  cases xs with
  | nil => rfl
  | cons y ys =>
    rw [List.getLast?_cons_cons]
    cases h : (y :: ys).getLast? with
    | some z => rfl
    | none => exact absurd (List.getLast?_eq_none_iff.mp h) (by simp)

/-- `lastAssoc` over the (output, delay) projection of a component list is
the delay of the last component with the given output. -/
theorem lastAssoc_map_filter (l : List Component) (v : String) :
    lastAssoc v (l.map (fun comp => (comp.output, comp.delay))) =
      ((l.filter (fun comp => comp.output = v)).getLast?).map
        (fun comp => comp.delay) := by
  induction l with
  | nil => rfl
  | cons comp rest ih =>
    simp only [List.map_cons, lastAssoc]
    rw [ih]
    by_cases hc : comp.output = v
    · have hfil : (comp :: rest).filter (fun comp => comp.output = v) =
          comp :: rest.filter (fun comp => comp.output = v) := by
        simp [List.filter_cons, hc]
      rw [hfil, getLast_cons_match]
      cases h : (rest.filter (fun comp => comp.output = v)).getLast? with
      | some y => rfl
      | none => simp [hc]
    · have hfil : (comp :: rest).filter (fun comp => comp.output = v) =
          rest.filter (fun comp => comp.output = v) := by
        simp [List.filter_cons, hc]
      rw [hfil]
      cases h : (rest.filter (fun comp => comp.output = v)).getLast? with
      | some y => rfl
      | none => simp [hc]

/-- Keys of `temporal_info` are distinct (it is a Python dict). -/
theorem temporal_info_keys_nodup (c : Circuit) :
    ((temporal_info c).map Prod.fst).Nodup := by
  rw [temporal_info_eq_buildDict]
  exact buildDict_keys_nodup _

/-- The `temporal_info` lookup of an output is the delay of the LAST
component (in encounter order) declaring that output. -/
theorem temporal_info_lookup (c : Circuit) (v : String) :
    List.lookup v (temporal_info c) =
      (((flatComponents c).filter (fun comp => comp.output = v)).getLast?).map
        (fun comp => comp.delay) := by
  rw [temporal_info_eq_buildDict, lookup_buildDict, lastAssoc_map_filter]

/-- The soundness of the modelled satisfiability check: a returned
assignment satisfies the expression, and `none` means no assignment at all
satisfies it. -/
theorem satisfiable_spec (e : LogicExpr) :
    match satisfiable e with
    | some m => evalExpr (assignOf m) e = true
    | none => ∀ a : String → Bool, evalExpr a e = false := by
  cases h : satisfiable e with
  | some m =>
    have h2 := List.find?_some h
    simpa using h2
  | none =>
    intro a
    have ha : evalExpr a e = true ∨ evalExpr a e = false := by
      cases evalExpr a e
      · exact Or.inr rfl
      · exact Or.inl rfl
    cases ha with
    | inr hf => exact hf
    | inl ht =>
      exfalso
      have hmem := mem_allAssignments a (varsOf e)
      have hnone := List.find?_eq_none.mp h _ hmem
      apply hnone
      have hagree : ∀ s ∈ varsOf e,
          assignOf ((varsOf e).map fun v => (v, a v)) s = a s :=
        fun s hs => assignOf_map_eq a (varsOf e) s hs
      rw [evalExpr_congr _ a e hagree]
      exact ht

/-- The app's default component `Y11 = And(A,B)` with delay 0. -/
def compAnd : Component := ⟨["A", "B"], "Y11", .and [.var "A", .var "B"], 0⟩

/-- A clashing component: same name and output variable as `compAnd` but
different logic (`Y11 = Or(A,B)`) and delay 2. -/
def compOr : Component := ⟨["A", "B"], "Y11", .or [.var "A", .var "B"], 2⟩

/-- A circuit in which two components declare the same output `Y`:
`C11 : Y = A` with delay 2, then `C12 : Y = B` with delay 0. -/
def dupOutCircuit : Circuit :=
  [("SC1", [("C11", ⟨["A"], "Y", .var "A", 2⟩), ("C12", ⟨["B"], "Y", .var "B", 0⟩)])]

/-- Scenario 2 of the spec: the single component `C1 : Y1 = Not(A)` with
delay 2. -/
def notCircuit : Circuit :=
  [("SC1", [("C1", ⟨["A"], "Y1", .not (.var "A"), 2⟩)])]

/-- C1: for every composed circuit expression and every assignment of truth
values to its variables, the simplified expression returned by the (spec-
modelled) DNF simplifier evaluates to the same truth value as the composed
expression, and the simplified form is a disjunction of conjunctions of
literals. -/
theorem C1_simplify_equivalent_dnf (c : Circuit) (a : String → Bool) :
    evalExpr a (simplify_logic (circuit_logic c)) = evalExpr a (circuit_logic c) ∧
      isDNF (simplify_logic (circuit_logic c)) = true :=
  ⟨evalExpr_simplify a (circuit_logic c), isDNF_simplify (circuit_logic c)⟩

/-- C2: for every composed circuit expression, when the (spec-modelled)
satisfiability check returns an assignment, the expression evaluates to true
under it; when it signals unsatisfiable, no assignment at all makes the
expression true. -/
theorem C2_satisfiable_sound (c : Circuit) :
    match satisfiable (circuit_logic c) with
    | some m => evalExpr (assignOf m) (circuit_logic c) = true
    | none => ∀ a : String → Bool, evalExpr a (circuit_logic c) = false :=
  satisfiable_spec (circuit_logic c)

/-- C3: in the simulation table over the window `t_steps = 3`, the row of an
output variable whose (last) defining component has delay `d` is 0 strictly
before index `d` and 1 from `d` through `t_steps - 1` (hence non-decreasing,
transitioning exactly at `d`), is all zero when `d ≥ t_steps`, and the row
of a variable that is not the output of any component is all zero. -/
theorem C3_sim_table_rows (c : Circuit) (all_vars : List String) (v : String)
    (hv : v ∈ all_vars) :
    match ((flatComponents c).filter (fun comp => comp.output = v)).getLast? with
    | some comp =>
        ∃ row, List.lookup v (sim_table all_vars (temporal_info c)) = some row ∧
          row.length = t_steps ∧
          (∀ t, t < t_steps → row.getD t 0 = if comp.delay ≤ t then 1 else 0) ∧
          (∀ t1 t2, t1 ≤ t2 → t2 < t_steps → row.getD t1 0 ≤ row.getD t2 0) ∧
          (t_steps ≤ comp.delay → row = List.replicate t_steps 0)
    | none =>
        List.lookup v (sim_table all_vars (temporal_info c)) =
          some (List.replicate t_steps 0) := by
  have hlk := lookup_sim_table all_vars (temporal_info c) v
    (temporal_info_keys_nodup c) hv
  rw [temporal_info_lookup] at hlk
  split
  · rename_i comp hg
    rw [hg] at hlk
    simp only [Option.map_some'] at hlk
    refine ⟨assertFrom (List.replicate t_steps 0) comp.delay, hlk, ?_, ?_, ?_, ?_⟩
    · rw [assertFrom_replicate_zero]
      rfl
    · intro t ht
      rw [assertFrom_replicate_zero]
      have ht3 : t < 3 := ht
      interval_cases t <;> rfl
    · intro t1 t2 h12 h2
      rw [assertFrom_replicate_zero]
      have h2' : t2 < 3 := h2
      interval_cases t2 <;> interval_cases t1 <;>
        simp only [List.getD_cons_zero, List.getD_cons_succ] <;> split_ifs <;> omega
    · intro hd
      have hd3 : 3 ≤ comp.delay := hd
      rw [assertFrom_replicate_zero]
      have h0 : ¬comp.delay ≤ 0 := by omega
      have h1 : ¬comp.delay ≤ 1 := by omega
      have h2 : ¬comp.delay ≤ 2 := by omega
      rw [if_neg h0, if_neg h1, if_neg h2]
      rfl
  · rename_i hg
    rw [hg] at hlk
    simpa using hlk

/-- C3 witness: Scenario 2 (`Y1 = Not(A)`, delay 2) over the variables
`A, Y1`. -/
theorem C3_sim_table_rows_witness :
    ("Y1" ∈ ["A", "Y1"]) ∧
      (match ((flatComponents notCircuit).filter
          (fun comp => comp.output = "Y1")).getLast? with
      | some comp =>
          ∃ row, List.lookup "Y1" (sim_table ["A", "Y1"] (temporal_info notCircuit)) =
              some row ∧
            row.length = t_steps ∧
            (∀ t, t < t_steps → row.getD t 0 = if comp.delay ≤ t then 1 else 0) ∧
            (∀ t1 t2, t1 ≤ t2 → t2 < t_steps → row.getD t1 0 ≤ row.getD t2 0) ∧
            (t_steps ≤ comp.delay → row = List.replicate t_steps 0)
      | none =>
          List.lookup "Y1" (sim_table ["A", "Y1"] (temporal_info notCircuit)) =
            some (List.replicate t_steps 0)) :=
  ⟨by decide, C3_sim_table_rows notCircuit ["A", "Y1"] "Y1" (by decide)⟩

/-- C4: building the proof tree from an unchanged expression is a pure
function of the expression (two builds of one run state agree), and the node
ids are exactly `n0, n1, …`, assigned by the monotonically increasing
counter in pre-order: each node before its children, children in argument
order.  (Each analysis run of the app re-executes the script, re-creating
`counter=[0]`, so repeated runs start from counter 0 as modelled here.) -/
theorem C4_proof_tree_deterministic_preorder (e : LogicExpr) :
    build_proof_tree e none 0 = build_proof_tree e none 0 ∧
      (build_proof_tree e none 0).1.map (fun n => n.id) =
        (List.range (nodeCount e)).map nodeId ∧
      (build_proof_tree e none 0).2.2 = nodeCount e := by
  refine ⟨rfl, ?_, ?_⟩
  · rw [(build_proof_tree_ids e none 0).2]
    apply List.map_congr_left
    intro i _
    show nodeId (0 + i) = nodeId i
    rw [Nat.zero_add]
  · rw [(build_proof_tree_ids e none 0).1, Nat.zero_add]

/-- C5: the binding step is a plain substring replacement, so on the app's
OWN default input (`Y11 = And(A,B)` with declared variables `A`, `B`,
`Y11`) the variable `A` is also replaced inside the operator name `And`,
yielding `var_map['A']nd(...)` — not a Python expression at all — in either
iteration order of the variable dict; tokens are NOT resolved by exact
name.  An undeclared token (`D`) is left unreplaced, so `eval` raises
`NameError` for it (the error the spec calls `UnknownVariable`). -/
theorem C5_substring_binding_corrupts_default :
    bind_formula "And(A,B)" ["A", "B"] =
        varMapRef "A" ++ "nd(" ++ varMapRef "A" ++ "," ++ varMapRef "B" ++ ")" ∧
      bind_formula "And(A,B)" ["B", "A"] =
        varMapRef "A" ++ "nd(" ++ varMapRef "A" ++ "," ++ varMapRef "B" ++ ")" ∧
      bind_formula "And(A,B)" ["A", "B"] ≠
        "And(" ++ varMapRef "A" ++ "," ++ varMapRef "B" ++ ")" ∧
      bind_formula "Or(A,D)" ["A", "B"] = "Or(" ++ varMapRef "A" ++ ",D)" := by
  refine ⟨?_, ?_, ?_, ?_⟩ <;> decide

/-- C6 counterexample: with two components both named `C11` in one
sub-circuit, the aggregation dict silently keeps only the LAST definition —
no `DuplicateName` failure exists — and whole-circuit analysis proceeds on
the surviving component. -/
theorem C6_duplicate_name_counterexample :
    buildDict [("C11", compAnd), ("C11", compOr)] = [("C11", compOr)] ∧
      circuit_logic [("SC1", buildDict [("C11", compAnd), ("C11", compOr)])] =
        compOr.expr := by
  constructor
  · rfl
  · rfl

/-- C6 amended: duplicate names within a scope are not detected: Python dict
assignment keeps one entry per name bound to the LAST definition (keys stay
distinct), no error is raised, and analysis proceeds on the surviving
components. -/
theorem C6_duplicate_name_overwrites (entries : List (String × Component))
    (k : String) :
    List.lookup k (buildDict entries) = lastAssoc k entries ∧
      ((buildDict entries).map Prod.fst).Nodup :=
  ⟨lookup_buildDict entries k, buildDict_keys_nodup entries⟩

/-- C7: the composed circuit logic is `And` of every component's bound
expression in encounter order (sub-circuit order, then component order),
with no substitution — under any assignment it is true exactly when every
component's own bound expression is true. -/
theorem C7_composition_flat_conjunction (c : Circuit) (a : String → Bool) :
    circuit_logic c = mkAnd ((flatComponents c).map (fun comp => comp.expr)) ∧
      evalExpr a (circuit_logic c) =
        (flatComponents c).all (fun comp => evalExpr a comp.expr) := by
  constructor
  · unfold circuit_logic
    rw [evaluated_exprs_eq]
  · unfold circuit_logic
    rw [evalExpr_mkAnd, evaluated_exprs_eq]
    exact all_map_eq _ _ _ _ (fun comp _ => rfl)

/-- C8 counterexample: composing a circuit with no components does NOT fail:
`And()` of the empty argument list is the constant `True`, so a
`CircuitLogic` value IS produced (and is satisfied by every assignment). -/
theorem C8_empty_circuit_counterexample :
    circuit_logic [] = LogicExpr.tru ∧
      evalExpr (fun _ => false) (circuit_logic []) = true := by
  constructor
  · rfl
  · rfl

/-- C8 amended: there is no `EmptyCircuit` failure: with no components the
composition yields the constant-true expression, every assignment satisfies
it, and the analysis pipeline proceeds (the satisfiability check returns
the empty assignment, the simplifier a DNF).  (The sidebar additionally
forces at least one sub-circuit and one component, so the case cannot even
arise through the UI.) -/
theorem C8_empty_circuit_is_true (a : String → Bool) :
    circuit_logic [] = LogicExpr.tru ∧
      evalExpr a (circuit_logic []) = true ∧
      satisfiable (circuit_logic []) = some [] ∧
      isDNF (simplify_logic (circuit_logic [])) = true :=
  ⟨rfl, rfl, rfl, isDNF_simplify _⟩

/-- C9 counterexample: the explanation strings the code produces are
`Primitive output: …` (capital P) and `NOT of: …`, not the claimed
`primitive output: …` and `negation of: …`. -/
theorem C9_explanation_strings_counterexample :
    describe_expr (.not (.var "A")) = "NOT of: A" ∧
      describe_expr (.not (.var "A")) ≠ "negation of: A" ∧
      describe_expr (.var "A") = "Primitive output: A" ∧
      describe_expr (.var "A") ≠ "primitive output: A" := by
  refine ⟨?_, ?_, ?_, ?_⟩ <;> decide

/-- C9 amended: a Variable node's explanation is `"Primitive output: <name>"`,
a Not node's is `"NOT of: <operand>"` and in the built tree it has exactly
one child (its operand), and an And (resp. Or) node's explanation is
`"AND combines: <args tuple>"` (resp. `"OR combines: …"`) listing its
immediate operands, with one child per operand. -/
theorem C9_describe_and_children (s : String) (e : LogicExpr)
    (es : List LogicExpr) (c : Nat) :
    describe_expr (.var s) = "Primitive output: " ++ s ∧
      describe_expr (.not e) = "NOT of: " ++ exprStr e ∧
      describe_expr (.and es) = "AND combines: " ++ tupleStr (es.map exprStr) ∧
      describe_expr (.or es) = "OR combines: " ++ tupleStr (es.map exprStr) ∧
      ((build_proof_tree (.not e) none c).2.1.filter
        (fun ed => ed.1 = nodeId c)).length = 1 ∧
      ((build_proof_tree (.and es) none c).2.1.filter
        (fun ed => ed.1 = nodeId c)).length = es.length ∧
      ((build_proof_tree (.or es) none c).2.1.filter
        (fun ed => ed.1 = nodeId c)).length = es.length := by
  have hq : ∀ k, c + 1 ≤ k → nodeId c ≠ nodeId k := fun k hk he => by
    have h2 := nodeId_injective _ _ he
    omega
  refine ⟨rfl, rfl, rfl, rfl, ?_, ?_, ?_⟩
  · have h := build_edge_src_count e (some (nodeId c)) (c + 1) (nodeId c) hq
    show ((([] : List (String × String)) ++
        (build_proof_tree e (some (nodeId c)) (c + 1)).2.1).filter
          (fun ed => ed.1 = nodeId c)).length = 1
    rw [List.nil_append, h]
    simp
  · have h := build_children_edge_src_count es (nodeId c) (c + 1) (nodeId c) hq
    show ((([] : List (String × String)) ++
        (build_children es (nodeId c) (c + 1)).2.1).filter
          (fun ed => ed.1 = nodeId c)).length = es.length
    rw [List.nil_append, h]
    simp
  · have h := build_children_edge_src_count es (nodeId c) (c + 1) (nodeId c) hq
    show ((([] : List (String × String)) ++
        (build_children es (nodeId c) (c + 1)).2.1).filter
          (fun ed => ed.1 = nodeId c)).length = es.length
    rw [List.nil_append, h]
    simp

/-- C10: when several components declare the same output variable, the
per-output delay map keeps only the delay of the LAST such component in
encounter order, and that variable's simulation row is computed from that
last delay alone. -/
theorem C10_last_delay_wins (c : Circuit) (v : String) :
    List.lookup v (temporal_info c) =
        (((flatComponents c).filter (fun comp => comp.output = v)).getLast?).map
          (fun comp => comp.delay) ∧
      ∀ all_vars : List String, v ∈ all_vars →
        List.lookup v (sim_table all_vars (temporal_info c)) =
          some
            (match ((flatComponents c).filter
                (fun comp => comp.output = v)).getLast? with
            | some comp => assertFrom (List.replicate t_steps 0) comp.delay
            | none => List.replicate t_steps 0) := by
  constructor
  · exact temporal_info_lookup c v
  · intro all_vars hv
    have hlk := lookup_sim_table all_vars (temporal_info c) v
      (temporal_info_keys_nodup c) hv
    rw [temporal_info_lookup] at hlk
    cases hg : ((flatComponents c).filter (fun comp => comp.output = v)).getLast? with
    | some comp =>
      rw [hg] at hlk
      simpa using hlk
    | none =>
      rw [hg] at hlk
      simpa using hlk

/-- C10 witness: two components with output `Y` (delays 2 then 0): the row
of `Y` reflects the last component's delay 0. -/
theorem C10_last_delay_wins_witness :
    ("Y" ∈ ["A", "B", "Y"]) ∧
      List.lookup "Y" (sim_table ["A", "B", "Y"] (temporal_info dupOutCircuit)) =
        some
          (match ((flatComponents dupOutCircuit).filter
              (fun comp => comp.output = "Y")).getLast? with
          | some comp => assertFrom (List.replicate t_steps 0) comp.delay
          | none => List.replicate t_steps 0) :=
  ⟨by decide, (C10_last_delay_wins dupOutCircuit "Y").2 ["A", "B", "Y"] (by decide)⟩

end HOL
